import Mathlib

/-!
# Verification of bazarr's subtitle orchestration core (`get_subtitle.py`)

Shallow embedding of the adaptive search gate (`is_search_active`,
`updateFailedAttempts`), the language-variant expansion of the automatic
(`generate_subtitles`) and manual (`manual_search`) flows, the series
skip rule of `manual_search`, the minimum-score computation, and the
provider-throttle short circuit.

Modelling conventions:
* Timestamps are modelled as `Int` seconds (the Python code stores
  `datetime.timestamp(...)` floats; no behaviour examined here depends on
  sub-second precision).  `datetime.fromtimestamp` succeeds exactly on the
  representable datetime range, modelled by `tsParseable`.
* A parsed `failedAttempts` column is `Option (List AttemptEntry)`:
  `none` models a string `ast.literal_eval` rejects (the `ValueError`
  branch), `some l` a successfully parsed list of `[language, timestamp]`
  pairs.
* Python's `sorted` is a stable sort; since a stable sort's output is
  uniquely determined by the comparison key, `List.insertionSort` (stable)
  computes the same list.
-/

namespace Bazarr

/-- One `[language, timestamp]` pair of the persisted `failedAttempts`
list (spec: `SearchAttempt`). -/
structure AttemptEntry where
  lang : String
  ts : Int
deriving DecidableEq, Repr

/-- The ordering used by `sorted(..., key=lambda x: x[1])`. -/
def tsLe (a b : AttemptEntry) : Prop := a.ts ≤ b.ts

instance : DecidableRel tsLe := fun a b => Int.decLe a.ts b.ts

instance : IsTotal AttemptEntry tsLe := ⟨fun a b => Int.le_total a.ts b.ts⟩

instance : IsTrans AttemptEntry tsLe := ⟨fun _ _ _ h1 h2 => le_trans h1 h2⟩

/-- Lexicographic comparison of character lists by code point — the
order Python uses to compare `str` values. -/
def listCharLe : List Char → List Char → Bool
  | [], _ => true
  | _ :: _, [] => false
  | a :: as, b :: bs =>
    if a.val.toNat < b.val.toNat then true
    else if b.val.toNat < a.val.toNat then false
    else listCharLe as bs

theorem listCharLe_total : ∀ s t, listCharLe s t = true ∨ listCharLe t s = true
  | [], _ => .inl rfl
  | _ :: _, [] => .inr rfl
  | a :: as, b :: bs => by
    by_cases h1 : a.val.toNat < b.val.toNat
    · left; simp [listCharLe, h1]
    · by_cases h2 : b.val.toNat < a.val.toNat
      · right; simp [listCharLe, h2]
      · rcases listCharLe_total as bs with h | h
        · left; simp [listCharLe, h1, h2, h]
        · right; simp [listCharLe, h1, h2, h]

theorem listCharLe_trans : ∀ s t u, listCharLe s t = true → listCharLe t u = true →
    listCharLe s u = true
  | [], _, _, _, _ => rfl
  | _ :: _, [], _, h, _ => by simp [listCharLe] at h
  | _ :: _, _ :: _, [], _, h => by simp [listCharLe] at h
  | a :: as, b :: bs, c :: cs, h1, h2 => by
    by_cases hab : a.val.toNat < b.val.toNat
    · by_cases hbc : b.val.toNat < c.val.toNat
      · simp [listCharLe, Nat.lt_trans hab hbc]
      · by_cases hcb : c.val.toNat < b.val.toNat
        · simp [listCharLe, hbc, hcb] at h2
        · have hac : a.val.toNat < c.val.toNat := by omega
          simp [listCharLe, hac]
    · by_cases hba : b.val.toNat < a.val.toNat
      · simp [listCharLe, hab, hba] at h1
      · simp only [listCharLe, if_neg hab, if_neg hba] at h1
        by_cases hbc : b.val.toNat < c.val.toNat
        · have hac : a.val.toNat < c.val.toNat := by omega
          simp [listCharLe, hac]
        · by_cases hcb : c.val.toNat < b.val.toNat
          · simp [listCharLe, hbc, hcb] at h2
          · simp only [listCharLe, if_neg hbc, if_neg hcb] at h2
            have hac : ¬ a.val.toNat < c.val.toNat := by omega
            have hca : ¬ c.val.toNat < a.val.toNat := by omega
            simp only [listCharLe, if_neg hac, if_neg hca]
            exact listCharLe_trans as bs cs h1 h2

/-- The ordering used by `sorted(..., key=lambda x: x[0])`: Python's
string comparison on the language code. -/
def langLe (a b : AttemptEntry) : Prop := listCharLe a.lang.data b.lang.data = true

instance : DecidableRel langLe := fun a b =>
  inferInstanceAs (Decidable (listCharLe a.lang.data b.lang.data = true))

instance : IsTotal AttemptEntry langLe :=
  ⟨fun a b => listCharLe_total a.lang.data b.lang.data⟩

instance : IsTrans AttemptEntry langLe :=
  ⟨fun x y z h1 h2 => listCharLe_trans x.lang.data y.lang.data z.lang.data h1 h2⟩

/-- `datetime.fromtimestamp(ts)` succeeds iff `ts` is in the representable
datetime range (year 1 .. year 9999); outside it the code catches
`OverflowError`/`ValueError`/`OSError` and fails open. -/
def tsParseable (t : Int) : Bool := -62135596800 ≤ t && t ≤ 253402300799

/-- The slice of `settings.general` read by the adaptive search gate. -/
structure AdaptiveConfig where
  adaptive_searching : Bool
  adaptive_searching_delay : String
  adaptive_searching_delta : String
deriving DecidableEq, Repr

/-- Python's `str.endswith`, computed on the character list. -/
def pyEndsWith (s suffix : String) : Bool := suffix.data.isSuffixOf s.data

/-- The characters of `l` strictly before the first occurrence of `c`. -/
def takeUntilChar (c : Char) : List Char → List Char
  | [] => []
  | x :: xs => if x = c then [] else x :: takeUntilChar c xs

/-- Python's `s.split(c)[0]`: the prefix of `s` before the first
occurrence of `c` (all of `s` when `c` does not occur). -/
def pySplitHead (s : String) (c : Char) : String := ⟨takeUntilChar c s.data⟩

/-- `int(s[:1])`: the first character of `s` as an integer; `none` when
that raises `ValueError` (empty slice or non-digit character). -/
def firstCharInt (s : String) : Option Int :=
  match s.data with
  | [] => none
  | c :: _ => if c.isDigit then some ((c.toNat : Int) - 48) else none

/-- Outcome of reading one `adaptive_searching_delay`/`_delta` setting. -/
inductive ConfigParse where
  /-- the string ends in `d`/`w` and `int(s[:1])` succeeded; the payload
  is the resulting `timedelta` in seconds -/
  | parsed (seconds : Int)
  /-- the string ends in neither `d` nor `w`: the gate logs and returns
  `True` (fail open) -/
  | unparsed
  /-- the string ends in `d`/`w` but `int(s[:1])` raises an uncaught
  `ValueError` -/
  | err
deriving DecidableEq, Repr

/-- The `timedelta` computation of `is_search_active` for one window
setting: `timedelta(days=int(s[:1]))` when `s.endswith('d')`,
`timedelta(weeks=int(s[:1]))` when `s.endswith('w')`, else fail open. -/
def parse_window (s : String) : ConfigParse :=
  if pyEndsWith s "d" then
    match firstCharInt s with
    | some d => .parsed (d * 86400)
    | none => .err
  else if pyEndsWith s "w" then
    match firstCharInt s with
    | some d => .parsed (d * 604800)
    | none => .err
  else .unparsed

/-- `is_search_active(desired_language, attempt_string)` of
`get_subtitle.py`, evaluated at instant `now`.  Returns `none` when the
Python function would raise (uncaught `ValueError` from `int(s[:1])`),
otherwise `some` of the returned boolean. -/
def is_search_active (cfg : AdaptiveConfig) (now : Int) (desired_language : String)
    (attempt_string : Option (List AttemptEntry)) : Option Bool :=
  if cfg.adaptive_searching then
    match attempt_string with
    | none => some true
    | some attempts =>
      if attempts.isEmpty then some true
      else
        match List.insertionSort tsLe (attempts.filter (fun x => x.lang = desired_language)) with
        | [] => some true
        | initial :: rest =>
          let latest := rest.getLastD initial
          if tsParseable initial.ts && tsParseable latest.ts then
            match parse_window cfg.adaptive_searching_delay with
            | .err => none
            | .unparsed => some true
            | .parsed extended_search_delay =>
              match parse_window cfg.adaptive_searching_delta with
              | .err => none
              | .unparsed => some true
              | .parsed extended_search_delta =>
                if initial.ts + extended_search_delay > now then some true
                else some (decide (latest.ts + extended_search_delta ≤ now))
          else some true
  else some true

/-- `updateFailedAttempts(desired_language, attempt_string)` of
`get_subtitle.py`, recording an attempt at instant `now`.  A malformed
attempt string (`none`) is replaced by the empty list; the function
returns the updated list (the Python code returns its `str(...)`
rendering). -/
def updateFailedAttempts (now : Int) (desired_language : String)
    (attempt_string : Option (List AttemptEntry)) : List AttemptEntry :=
  let attempts := attempt_string.getD []
  let matching_attempts :=
    List.insertionSort tsLe (attempts.filter (fun x => x.lang = desired_language))
  let filtered_attempts :=
    List.insertionSort tsLe (attempts.filter (fun x => ¬ x.lang = desired_language))
  let with_initial :=
    match matching_attempts with
    | [] => filtered_attempts
    | m :: _ => filtered_attempts ++ [m]
  List.insertionSort langLe (with_initial ++ [⟨desired_language, now⟩])

/-- The smallest timestamp occurring in a list of attempt entries. -/
def minTsList (l : List AttemptEntry) : Option Int :=
  match l.map (fun x => x.ts) with
  | [] => none
  | t :: ts => some (ts.foldl min t)

/-- The largest timestamp occurring in a list of attempt entries. -/
def maxTsList (l : List AttemptEntry) : Option Int :=
  match l.map (fun x => x.ts) with
  | [] => none
  | t :: ts => some (ts.foldl max t)

/-- The earliest timestamp among attempts matching `lang` (`none` when
there is no matching attempt).  Specification-side helper for stating
what "initial = earliest matching entry" means. -/
def earliestMatchingTs (lang : String) (attempts : List AttemptEntry) : Option Int :=
  minTsList (attempts.filter (fun x => x.lang = lang))

/-- The latest timestamp among attempts matching `lang`. -/
def latestMatchingTs (lang : String) (attempts : List AttemptEntry) : Option Int :=
  maxTsList (attempts.filter (fun x => x.lang = lang))

/-- The adaptive gate as the specification words it (`is_due`): always
due when gating is disabled; due when the history is malformed, empty or
has no entry for the language, or when the extremal timestamps cannot be
parsed; otherwise due during the frequent phase
(`now < initial + delay`), and in the sparse phase due iff
`now ≥ latest + delta`.  The windows are given directly in seconds. -/
def is_due_spec (enabled : Bool) (now delayW deltaW : Int) (lang : String)
    (attempt_string : Option (List AttemptEntry)) : Bool :=
  if ¬ enabled then true
  else
    match attempt_string with
    | none => true
    | some attempts =>
      match earliestMatchingTs lang attempts, latestMatchingTs lang attempts with
      | some tInit, some tLate =>
        if ¬ (tsParseable tInit && tsParseable tLate) then true
        else if now < tInit + delayW then true
        else decide (tLate + deltaW ≤ now)
      | _, _ => true

/-! ## Language-variant expansion -/

/-- A subzero `Language` object as the orchestrator distinguishes them:
base alpha3 code plus the `forced` and `hi` flags (spec:
`LanguageVariant`). -/
structure LangTag where
  base : String
  forced : Bool
  hi : Bool
deriving DecidableEq, Repr

/-- `Language.rebuild(lang_obj, hi=not lang_obj.hi)`. -/
def toggleHi (v : LangTag) : LangTag := ⟨v.base, v.forced, ! v.hi⟩

/-- The body of the `for l in languages` loop of `generate_subtitles`:
from a `(language, hi_item, forced_item)` tuple of strings, build the
queried variant.  `lang_obj` starts non-forced/non-hi, is rebuilt with
`forced=True` iff `forced_item == "True"`, and with `hi=True` iff
`hi_item == "True"` (via the intermediate `hi = "force HI"` string).
`toAlpha3` stands for `alpha3_from_alpha2` (external module
`get_languages`). -/
def gen_variant (toAlpha3 : String → String) (t : String × String × String) : LangTag :=
  ⟨toAlpha3 t.1, t.2.2 = "True", t.2.1 = "True"⟩

/-- The `language_set` built by `generate_subtitles` over its `languages`
argument: one `set.add` of `gen_variant` per tuple. -/
def generate_language_set (toAlpha3 : String → String)
    (languages : List (String × String × String)) : Finset LangTag :=
  languages.foldl (fun s t => insert (gen_variant toAlpha3 t) s) ∅

/-- `_wanted_movie`'s conversion of one missing-subtitles token into the
`(language, hi_, forced_)` tuple passed to `generate_subtitles`:
`(language.split(":")[0], "True" if language.endswith(':hi') else
"False", "True" if language.endswith(':forced') else "False")`. -/
def wanted_movie_tuple (language : String) : String × String × String :=
  (pySplitHead language ':',
   if pyEndsWith language ":hi" then "True" else "False",
   if pyEndsWith language ":forced" then "True" else "False")

/-- The HI-expansion loop of `manual_search`: starting from the
profile-derived `initial_language_set`, for every non-forced variant add
its HI-toggled counterpart (`hi=True` when the variant is non-hi,
`hi=False` when it is hi); forced variants are skipped (`continue`). -/
def manual_language_set (initial : Finset LangTag) : Finset LangTag :=
  initial ∪ (initial.filter (fun v => v.forced = false)).image toggleHi

/-! ## Series skip rule of `manual_search` -/

/-- The `can_verify_series` flag: `True` unless the candidate declares a
`hash` match while `s.hash_verifiable` is false. -/
def can_verify_series (hash_verifiable : Bool) (matchSet : Finset String) : Bool :=
  ! (! hash_verifiable && "hash" ∈ matchSet)

/-- The skip test of the series branch of `manual_search`: the candidate
is discarded (`continue`) iff `can_verify_series` holds and its matches
do not cover `{"series", "season", "episode"}`. -/
def series_skip (hash_verifiable : Bool) (matchSet : Finset String) : Bool :=
  can_verify_series hash_verifiable matchSet
    && ! ({"series", "season", "episode"} : Finset String) ⊆ matchSet

/-- The skip rule as the claim words it: discarded iff the candidate
cannot be hash-verified AND its matches do not cover
`{"series", "season", "episode"}`. -/
def series_skip_claim (hash_verifiable : Bool) (matchSet : Finset String) : Bool :=
  ! hash_verifiable && ! ({"series", "season", "episode"} : Finset String) ⊆ matchSet

/-! ## Minimum-score computation -/

/-- Modelled from the spec: the scoring handlers (`score.py`, not under
`src/`) expose a maximum achievable score per media type; the spec's
upgrade scenario fixes the series handler maximum at 360, and the movie
handler maximum at 120 (the value that makes `_get_scores`' default
`60 * 100 / max_score` the documented movie floor). -/
def handler_max_score (media_type : String) : Nat :=
  if media_type = "series" then 360 else 120

/-- `_get_scores(media_type, min_movie, min_ep)` restricted to the
minimum score it returns: the `or`-defaults
`60 * 100 / handler.max_score` (movie) and `240 * 100 / handler.max_score`
(episode) apply when the passed setting is falsy (`none`), the chosen
percentage is truncated with `int(...)`, and the handler's `get_scores`
(modelled from the spec: "a default floor expressed as percentage of
handler's max") turns it into `max_score * percent / 100`, truncated. -/
def get_scores_min (media_type : String) (min_movie min_ep : Option Nat) : Nat :=
  let maxs := handler_max_score media_type
  let mm := min_movie.getD (6000 / maxs)
  let me := min_ep.getD (24000 / maxs)
  (if media_type = "series" then me else mm) * maxs / 100

/-- The `min_score` override of `generate_subtitles`:
`if forced_minimum_score: min_score = int(forced_minimum_score) + 1`.
`none` models the `None` default and `some 0` a falsy zero — both leave
the `_get_scores` floor in place. -/
def effective_min_score (base : Int) (forced_minimum_score : Option Int) : Int :=
  match forced_minimum_score with
  | none => base
  | some f => if f = 0 then base else f + 1

/-- Modelled from the spec: `download_best_subtitles` (subliminal_patch,
not under `src/`) accepts a candidate iff its computed score meets
`min_score` ("query all providers for the best subtitle per language
meeting min_score"; scenario: score 350 rejected at floor 351, 355
accepted). -/
def meets_min_score (score min_score : Int) : Bool := min_score ≤ score

/-- The history action code `upgrade_subtitles` logs a successful
upgrade with: `history_log(3, ...)` / `history_log_movie(3, ...)`. -/
def upgrade_history_action : Nat := 3

/-! ## Provider-throttle short circuit -/

/-- Observable outcome of one search/download entry point. -/
structure SearchOutcome where
  /-- the call produced no results (`return None` / empty generator) -/
  returns_none : Bool
  /-- a provider query (`download_best_subtitles` / `list_all_subtitles`)
  was performed -/
  queried_providers : Bool
  /-- the "BAZARR All providers are throttled" message was logged -/
  logged_throttled : Bool
deriving DecidableEq, Repr

/-- Control flow of `generate_subtitles` up to the provider query:
empty `languages` returns immediately; the video is resolved next
(`video_ok` stands for `get_video` returning a `Video`); inside
`if video:`, an empty `pool.providers` list logs the throttle message and
returns `None` without querying; otherwise `download_best_subtitles` is
called (`saved_any` abstracts whether any subtitle was saved). -/
def generate_subtitles_outcome (languages : List (String × String × String))
    (providers : List String) (video_ok saved_any : Bool) : SearchOutcome :=
  if languages.isEmpty then ⟨true, false, false⟩
  else if ! video_ok then ⟨true, false, false⟩
  else if providers.isEmpty then ⟨true, false, true⟩
  else ⟨! saved_any, true, false⟩

/-- Control flow of `manual_search` up to the provider query: an empty
`providers` list logs the throttle message and returns `None` before the
video is even resolved; with providers and a resolved video,
`list_all_subtitles` is called and the (possibly empty) scored list is
returned. -/
def manual_search_outcome (providers : List String) (video_ok : Bool) : SearchOutcome :=
  if providers.isEmpty then ⟨true, false, true⟩
  else if ! video_ok then ⟨false, false, false⟩
  else ⟨false, true, false⟩

/-! ## Helper lemmas: extremal timestamps of sorted attempt lists -/

theorem foldl_min_le_init : ∀ (ts : List Int) (t : Int), ts.foldl min t ≤ t
  | [], _ => le_refl _
  | a :: as, t => le_trans (foldl_min_le_init as (min t a)) (min_le_left t a)

theorem foldl_min_le_mem : ∀ (ts : List Int) (t : Int), ∀ x ∈ ts, ts.foldl min t ≤ x
  | a :: as, t, x, hx => by
    rcases List.mem_cons.1 hx with rfl | hx
    · exact le_trans (foldl_min_le_init as (min t x)) (min_le_right t x)
    · exact foldl_min_le_mem as (min t a) x hx

theorem foldl_min_cases : ∀ (ts : List Int) (t : Int), ts.foldl min t = t ∨ ts.foldl min t ∈ ts
  | [], _ => .inl rfl
  | a :: as, t => by
    rcases foldl_min_cases as (min t a) with h | h
    · rcases min_choice t a with hm | hm
      · exact .inl (by rw [List.foldl_cons, h, hm])
      · exact .inr (by rw [List.foldl_cons, h, hm]; exact List.mem_cons_self a as)
    · exact .inr (List.mem_cons_of_mem a h)

theorem foldl_max_init_le : ∀ (ts : List Int) (t : Int), t ≤ ts.foldl max t
  | [], _ => le_refl _
  | a :: as, t => le_trans (le_max_left t a) (foldl_max_init_le as (max t a))

theorem foldl_max_mem_le : ∀ (ts : List Int) (t : Int), ∀ x ∈ ts, x ≤ ts.foldl max t
  | a :: as, t, x, hx => by
    rcases List.mem_cons.1 hx with rfl | hx
    · exact le_trans (le_max_right t x) (foldl_max_init_le as (max t x))
    · exact foldl_max_mem_le as (max t a) x hx

theorem foldl_max_cases : ∀ (ts : List Int) (t : Int), ts.foldl max t = t ∨ ts.foldl max t ∈ ts
  | [], _ => .inl rfl
  | a :: as, t => by
    rcases foldl_max_cases as (max t a) with h | h
    · rcases max_choice t a with hm | hm
      · exact .inl (by rw [List.foldl_cons, h, hm])
      · exact .inr (by rw [List.foldl_cons, h, hm]; exact List.mem_cons_self a as)
    · exact .inr (List.mem_cons_of_mem a h)

theorem minTsList_spec {l : List AttemptEntry} {t : Int} (h : minTsList l = some t) :
    (∃ x ∈ l, x.ts = t) ∧ ∀ x ∈ l, t ≤ x.ts := by
  match l, h with
  | a :: as, h =>
    simp only [minTsList, List.map_cons] at h
    injection h with h
    constructor
    · rcases foldl_min_cases (as.map (fun x => x.ts)) a.ts with hc | hc
      · exact ⟨a, List.mem_cons_self a as, by rw [← h, hc]⟩
      · rcases List.mem_map.1 hc with ⟨x, hx, hxt⟩
        exact ⟨x, List.mem_cons_of_mem a hx, by rw [← h, hxt]⟩
    · intro x hx
      rcases List.mem_cons.1 hx with rfl | hx
      · exact h ▸ foldl_min_le_init _ _
      · exact h ▸ foldl_min_le_mem _ _ _ (List.mem_map_of_mem (fun x => x.ts) hx)

theorem maxTsList_spec {l : List AttemptEntry} {t : Int} (h : maxTsList l = some t) :
    (∃ x ∈ l, x.ts = t) ∧ ∀ x ∈ l, x.ts ≤ t := by
  match l, h with
  | a :: as, h =>
    simp only [maxTsList, List.map_cons] at h
    injection h with h
    constructor
    · rcases foldl_max_cases (as.map (fun x => x.ts)) a.ts with hc | hc
      · exact ⟨a, List.mem_cons_self a as, by rw [← h, hc]⟩
      · rcases List.mem_map.1 hc with ⟨x, hx, hxt⟩
        exact ⟨x, List.mem_cons_of_mem a hx, by rw [← h, hxt]⟩
    · intro x hx
      rcases List.mem_cons.1 hx with rfl | hx
      · exact h ▸ foldl_max_init_le _ _
      · exact h ▸ foldl_max_mem_le _ _ _ (List.mem_map_of_mem (fun x => x.ts) hx)

theorem minTsList_eq_none_iff (l : List AttemptEntry) : minTsList l = none ↔ l = [] := by
  cases l <;> simp [minTsList]

theorem maxTsList_eq_none_iff (l : List AttemptEntry) : maxTsList l = none ↔ l = [] := by
  cases l <;> simp [maxTsList]

theorem minTsList_isSome {l : List AttemptEntry} (h : l ≠ []) : ∃ t, minTsList l = some t := by
  cases l with
  | nil => exact absurd rfl h
  | cons a as => exact ⟨_, rfl⟩

theorem maxTsList_isSome {l : List AttemptEntry} (h : l ≠ []) : ∃ t, maxTsList l = some t := by
  cases l with
  | nil => exact absurd rfl h
  | cons a as => exact ⟨_, rfl⟩

theorem minTsList_perm {l₁ l₂ : List AttemptEntry} (h : l₁.Perm l₂) :
    minTsList l₁ = minTsList l₂ := by
  cases hl₁ : l₁ with
  | nil => rw [hl₁, List.nil_perm] at h; rw [h]
  | cons a as =>
    have h₂ : l₂ ≠ [] := by
      intro hn; rw [hn, List.perm_nil, hl₁] at h; exact List.cons_ne_nil a as h
    rw [hl₁] at h
    obtain ⟨t₁, ht₁⟩ := minTsList_isSome (l := a :: as) (List.cons_ne_nil a as)
    obtain ⟨t₂, ht₂⟩ := minTsList_isSome h₂
    obtain ⟨⟨x₁, hx₁, hx₁t⟩, hall₁⟩ := minTsList_spec ht₁
    obtain ⟨⟨x₂, hx₂, hx₂t⟩, hall₂⟩ := minTsList_spec ht₂
    rw [ht₁, ht₂]
    have le₁ : t₁ ≤ t₂ := hx₂t ▸ hall₁ x₂ (h.mem_iff.2 hx₂)
    have le₂ : t₂ ≤ t₁ := hx₁t ▸ hall₂ x₁ (h.mem_iff.1 hx₁)
    exact congrArg some (le_antisymm le₁ le₂)

theorem maxTsList_perm {l₁ l₂ : List AttemptEntry} (h : l₁.Perm l₂) :
    maxTsList l₁ = maxTsList l₂ := by
  cases hl₁ : l₁ with
  | nil => rw [hl₁, List.nil_perm] at h; rw [h]
  | cons a as =>
    have h₂ : l₂ ≠ [] := by
      intro hn; rw [hn, List.perm_nil, hl₁] at h; exact List.cons_ne_nil a as h
    rw [hl₁] at h
    obtain ⟨t₁, ht₁⟩ := maxTsList_isSome (l := a :: as) (List.cons_ne_nil a as)
    obtain ⟨t₂, ht₂⟩ := maxTsList_isSome h₂
    obtain ⟨⟨x₁, hx₁, hx₁t⟩, hall₁⟩ := maxTsList_spec ht₁
    obtain ⟨⟨x₂, hx₂, hx₂t⟩, hall₂⟩ := maxTsList_spec ht₂
    rw [ht₁, ht₂]
    have le₁ : t₂ ≤ t₁ := hx₂t ▸ hall₁ x₂ (h.mem_iff.2 hx₂)
    have le₂ : t₁ ≤ t₂ := hx₁t ▸ hall₂ x₁ (h.mem_iff.1 hx₁)
    exact congrArg some (le_antisymm le₂ le₁)

theorem getLastD_mem {α : Type} : ∀ (l : List α) (a : α), l.getLastD a ∈ a :: l
  | [], a => by simp
  | b :: bs, a => by
    rw [List.getLastD_cons]
    exact List.mem_cons_of_mem a (getLastD_mem bs b)

theorem sorted_ts_le_getLastD :
    ∀ {a : AttemptEntry} {rest : List AttemptEntry}, List.Sorted tsLe (a :: rest) →
      ∀ x ∈ a :: rest, x.ts ≤ (rest.getLastD a).ts
  | a, [], _, x, hx => by
    rcases List.mem_cons.1 hx with rfl | hx
    · exact le_refl _
    · exact absurd hx (List.not_mem_nil x)
  | a, b :: bs, h, x, hx => by
    rw [List.getLastD_cons]
    rcases List.mem_cons.1 hx with rfl | hx
    · exact le_trans (List.rel_of_sorted_cons h b (List.mem_cons_self b bs))
        (sorted_ts_le_getLastD h.of_cons b (List.mem_cons_self b bs))
    · exact sorted_ts_le_getLastD h.of_cons x hx

/-- The head of the timestamp-sorted list is an entry with the minimal
timestamp. -/
theorem insertionSort_head_min {l : List AttemptEntry} {a : AttemptEntry}
    {rest : List AttemptEntry} (h : List.insertionSort tsLe l = a :: rest) :
    minTsList l = some a.ts := by
  have hperm : (a :: rest).Perm l := h ▸ List.perm_insertionSort tsLe l
  have hsorted : List.Sorted tsLe (a :: rest) := h ▸ List.sorted_insertionSort tsLe l
  rw [← minTsList_perm hperm]
  obtain ⟨t, ht⟩ := minTsList_isSome (l := a :: rest) (List.cons_ne_nil a rest)
  obtain ⟨⟨x, hx, hxt⟩, hall⟩ := minTsList_spec ht
  rw [ht]
  refine congrArg some (le_antisymm (hall a (List.mem_cons_self a rest)) ?_)
  rcases List.mem_cons.1 hx with rfl | hx
  · exact le_of_eq hxt
  · exact le_trans (List.rel_of_sorted_cons hsorted x hx) (le_of_eq hxt)

/-- The last element of the timestamp-sorted list is an entry with the
maximal timestamp. -/
theorem insertionSort_last_max {l : List AttemptEntry} {a : AttemptEntry}
    {rest : List AttemptEntry} (h : List.insertionSort tsLe l = a :: rest) :
    maxTsList l = some ((rest.getLastD a).ts) := by
  have hperm : (a :: rest).Perm l := h ▸ List.perm_insertionSort tsLe l
  have hsorted : List.Sorted tsLe (a :: rest) := h ▸ List.sorted_insertionSort tsLe l
  rw [← maxTsList_perm hperm]
  obtain ⟨t, ht⟩ := maxTsList_isSome (l := a :: rest) (List.cons_ne_nil a rest)
  obtain ⟨⟨x, hx, hxt⟩, hall⟩ := maxTsList_spec ht
  rw [ht]
  refine congrArg some (le_antisymm ?_ ?_)
  · exact hxt ▸ sorted_ts_le_getLastD hsorted x hx
  · exact hall _ (getLastD_mem rest a)

/-- Core correspondence between the code's `is_search_active` and the
specification's `is_due` wording, for configurations whose two window
settings parse.  Shared backbone of the gate theorems. -/
theorem is_search_active_eq_due (cfg : AdaptiveConfig) (now : Int) (lang : String)
    (hist : Option (List AttemptEntry)) (dW dT : Int)
    (hd : parse_window cfg.adaptive_searching_delay = .parsed dW)
    (ht : parse_window cfg.adaptive_searching_delta = .parsed dT) :
    is_search_active cfg now lang hist =
      some (is_due_spec cfg.adaptive_searching now dW dT lang hist) := by
  unfold is_search_active is_due_spec
  cases hen : cfg.adaptive_searching with
  | false => simp
  | true =>
    simp only [if_true, not_true_eq_false, if_false]
    cases hist with
    | none => rfl
    | some attempts =>
      simp only
      by_cases hA : attempts.isEmpty = true
      · have : attempts = [] := List.isEmpty_iff.1 hA
        subst this
        simp [earliestMatchingTs, latestMatchingTs, minTsList, maxTsList, List.filter_nil]
      · rw [Bool.not_eq_true] at hA
        simp only [hA, Bool.false_eq_true, if_false]
        cases hsort : List.insertionSort tsLe (attempts.filter (fun x => x.lang = lang)) with
        | nil =>
          have hperm := List.perm_insertionSort tsLe (attempts.filter (fun x => x.lang = lang))
          rw [hsort] at hperm
          have hfil : attempts.filter (fun x => x.lang = lang) = [] := List.nil_perm.1 hperm
          simp only [earliestMatchingTs, latestMatchingTs, hfil]
          rfl
        | cons a rest =>
          simp only [earliestMatchingTs, latestMatchingTs, insertionSort_head_min hsort,
            insertionSort_last_max hsort]
          by_cases hp : (tsParseable a.ts && tsParseable (rest.getLastD a).ts) = true
          · rw [if_pos hp, if_neg (fun hc => hc hp)]
            simp only [hd, ht]
            by_cases hw : now < a.ts + dW
            · rw [if_pos hw, if_pos hw]
            · rw [if_neg hw, if_neg hw]
          · rw [if_neg hp, if_pos hp]

/-! ## Helper lemmas: structure of `updateFailedAttempts` results -/

/-- The updated attempt list is, as a multiset, the non-matching entries
plus the earliest matching entry (if any) plus the new entry. -/
theorem update_perm (now : Int) (lang : String) (hist : Option (List AttemptEntry)) :
    (updateFailedAttempts now lang hist).Perm
      ((hist.getD []).filter (fun x => ¬ x.lang = lang) ++
       (List.insertionSort tsLe ((hist.getD []).filter (fun x => x.lang = lang))).take 1 ++
       [⟨lang, now⟩]) := by
  unfold updateFailedAttempts
  have hpermF := List.perm_insertionSort tsLe ((hist.getD []).filter (fun x => ¬ x.lang = lang))
  cases hsort : List.insertionSort tsLe ((hist.getD []).filter (fun x => x.lang = lang)) with
  | nil =>
    simp only [hsort, List.take_nil, List.append_nil]
    exact (List.perm_insertionSort langLe _).trans (hpermF.append_right [⟨lang, now⟩])
  | cons m ms =>
    simp only [hsort, List.take_succ_cons, List.take_zero]
    refine (List.perm_insertionSort langLe _).trans ?_
    rw [List.append_assoc, List.append_assoc]
    exact (hpermF.append_right ([m] ++ [⟨lang, now⟩]))

/-- The entries of the updated list matching the recorded language are,
as a multiset, the earliest previously matching entry (if any) plus the
new entry. -/
theorem update_filter_lang_perm (now : Int) (lang : String)
    (hist : Option (List AttemptEntry)) :
    ((updateFailedAttempts now lang hist).filter (fun x => x.lang = lang)).Perm
      ((List.insertionSort tsLe ((hist.getD []).filter (fun x => x.lang = lang))).take 1 ++
       [⟨lang, now⟩]) := by
  refine ((update_perm now lang hist).filter (fun x => x.lang = lang)).trans ?_
  rw [List.filter_append, List.filter_append]
  have hF : ((hist.getD []).filter (fun x => ¬ x.lang = lang)).filter
      (fun x => x.lang = lang) = [] := by
    rw [List.filter_eq_nil_iff]
    intro a ha
    have := (List.mem_filter.1 ha).2
    simp only [decide_not, Bool.not_eq_true', decide_eq_false_iff_not] at this
    simp [this]
  have hM : ∀ a ∈ (List.insertionSort tsLe ((hist.getD []).filter
      (fun x => x.lang = lang))).take 1, a.lang = lang := by
    intro a ha
    have ha2 := List.mem_of_mem_take ha
    have ha3 := (List.mem_insertionSort tsLe).1 ha2
    exact of_decide_eq_true (List.mem_filter.1 ha3).2
  rw [hF, List.filter_eq_self.2 (fun a ha => decide_eq_true (hM a ha))]
  simp

/-- Entries of other languages are untouched (as a multiset). -/
theorem update_filter_other_perm (now : Int) (lang l : String)
    (hist : Option (List AttemptEntry)) (hne : ¬ l = lang) :
    ((updateFailedAttempts now lang hist).filter (fun x => x.lang = l)).Perm
      ((hist.getD []).filter (fun x => x.lang = l)) := by
  have hne' : ¬ lang = l := fun h => hne h.symm
  refine ((update_perm now lang hist).filter (fun x => x.lang = l)).trans ?_
  rw [List.filter_append, List.filter_append, List.filter_filter]
  have hM : List.filter (fun x => x.lang = l) ((List.insertionSort tsLe ((hist.getD []).filter
      (fun x => x.lang = lang))).take 1) = [] := by
    rw [List.filter_eq_nil_iff]
    intro a ha
    have ha2 := List.mem_of_mem_take ha
    have ha3 := (List.mem_insertionSort tsLe).1 ha2
    have : a.lang = lang := of_decide_eq_true (List.mem_filter.1 ha3).2
    simp [this, hne']
  have hnew : List.filter (fun x => x.lang = l) [(⟨lang, now⟩ : AttemptEntry)] = [] := by
    simp [hne']
  rw [hM, hnew, List.append_nil, List.append_nil]
  apply List.Perm.of_eq
  apply List.filter_congr
  intro x _
  by_cases hx : x.lang = l
  · have hxl : ¬ x.lang = lang := fun h => hne (hx ▸ h)
    simp [hx, hxl, hne]
  · simp [hx]

/-- Every entry of the (at most singleton) kept head of the sorted
matching list carries the recorded language. -/
theorem take1_sort_lang (lang : String) (hist : Option (List AttemptEntry)) :
    ∀ a ∈ (List.insertionSort tsLe ((hist.getD []).filter
      (fun x => x.lang = lang))).take 1, a.lang = lang := by
  intro a ha
  have ha2 := List.mem_of_mem_take ha
  have ha3 := (List.mem_insertionSort tsLe).1 ha2
  exact of_decide_eq_true (List.mem_filter.1 ha3).2

/-- The updated attempt list is sorted by language code. -/
theorem update_sorted (now : Int) (lang : String) (hist : Option (List AttemptEntry)) :
    List.Sorted langLe (updateFailedAttempts now lang hist) := by
  unfold updateFailedAttempts
  cases List.insertionSort tsLe ((hist.getD []).filter (fun x => x.lang = lang)) with
  | nil => exact List.sorted_insertionSort langLe _
  | cons m ms => exact List.sorted_insertionSort langLe _

/-- Every pre-configuration stage of `is_search_active` that exits early
returns `True`; an unparsable delay setting therefore forces `some true`
whatever the other inputs. -/
theorem gate_fail_open_delay (cfg : AdaptiveConfig) (now : Int) (lang : String)
    (hist : Option (List AttemptEntry))
    (hu : parse_window cfg.adaptive_searching_delay = .unparsed) :
    is_search_active cfg now lang hist = some true := by
  unfold is_search_active
  cases hen : cfg.adaptive_searching with
  | false => simp
  | true =>
    simp only [if_true]
    cases hist with
    | none => rfl
    | some attempts =>
      simp only
      by_cases hA : attempts.isEmpty = true
      · simp [hA]
      · rw [Bool.not_eq_true] at hA
        simp only [hA, Bool.false_eq_true, if_false]
        cases hsort : List.insertionSort tsLe (attempts.filter (fun x => x.lang = lang)) with
        | nil => rfl
        | cons a rest =>
          simp only [hu]
          by_cases hp : (tsParseable a.ts && tsParseable (rest.getLastD a).ts) = true
          · rw [if_pos hp]
          · rw [if_neg hp]

/-- With a parsed delay setting but unparsable delta setting, the gate
also returns `some true` whatever the other inputs. -/
theorem gate_fail_open_delta (cfg : AdaptiveConfig) (now : Int) (lang : String)
    (hist : Option (List AttemptEntry)) (dW : Int)
    (hd : parse_window cfg.adaptive_searching_delay = .parsed dW)
    (hu : parse_window cfg.adaptive_searching_delta = .unparsed) :
    is_search_active cfg now lang hist = some true := by
  unfold is_search_active
  cases hen : cfg.adaptive_searching with
  | false => simp
  | true =>
    simp only [if_true]
    cases hist with
    | none => rfl
    | some attempts =>
      simp only
      by_cases hA : attempts.isEmpty = true
      · simp [hA]
      · rw [Bool.not_eq_true] at hA
        simp only [hA, Bool.false_eq_true, if_false]
        cases hsort : List.insertionSort tsLe (attempts.filter (fun x => x.lang = lang)) with
        | nil => rfl
        | cons a rest =>
          simp only [hd, hu]
          by_cases hp : (tsParseable a.ts && tsParseable (rest.getLastD a).ts) = true
          · rw [if_pos hp]
          · rw [if_neg hp]

/-! ## Claim theorems -/

/-- **C1.** For every language and attempt history (with the two window
settings parsing to `dW` and `dT` seconds), `is_search_active` returns
due=true when adaptive gating is disabled, when the history is malformed
or empty or has no entry for that language, or when the timestamps cannot
be parsed; otherwise, with initial the earliest matching entry and latest
the most recent matching entry, it returns true if now is before
initial + delay window, and in the remaining case it returns true iff now
is at or past latest + delta window — i.e. it agrees with `is_due_spec`,
the claim's wording. -/
theorem is_search_active_two_phase (cfg : AdaptiveConfig) (now : Int) (lang : String)
    (hist : Option (List AttemptEntry)) (dW dT : Int)
    (hd : parse_window cfg.adaptive_searching_delay = .parsed dW)
    (ht : parse_window cfg.adaptive_searching_delta = .parsed dT) :
    is_search_active cfg now lang hist =
      some (is_due_spec cfg.adaptive_searching now dW dT lang hist) :=
  is_search_active_eq_due cfg now lang hist dW dT hd ht

/-- Witness for C1 at a concrete configuration and history. -/
theorem is_search_active_two_phase_witness :
    parse_window "3w" = .parsed 1814400 ∧ parse_window "1w" = .parsed 604800 ∧
    is_search_active ⟨true, "3w", "1w"⟩ 1000000000 "en" (some [⟨"en", 100⟩, ⟨"en", 999⟩]) =
      some (is_due_spec true 1000000000 1814400 604800 "en"
        (some [⟨"en", 100⟩, ⟨"en", 999⟩])) :=
  ⟨by decide, by decide,
    is_search_active_two_phase ⟨true, "3w", "1w"⟩ 1000000000 "en"
      (some [⟨"en", 100⟩, ⟨"en", 999⟩]) 1814400 604800 (by decide) (by decide)⟩

/-- **C9.** The window settings are parsed from only the first character
of the string when it ends in `d` or `w` (so `"12w"` yields a one-week
window), and a string ending in neither `d` nor `w` makes the gate fail
open (return True), whether it is the delay or the delta setting. -/
theorem parse_window_first_char_only :
    (∀ (s : String) (c : Char) (cs : List Char), s.data = c :: cs → c.isDigit = true →
      pyEndsWith s "d" = true →
      parse_window s = .parsed (((c.toNat : Int) - 48) * 86400)) ∧
    (∀ (s : String) (c : Char) (cs : List Char), s.data = c :: cs → c.isDigit = true →
      pyEndsWith s "d" = false → pyEndsWith s "w" = true →
      parse_window s = .parsed (((c.toNat : Int) - 48) * 604800)) ∧
    parse_window "12w" = .parsed 604800 ∧
    (∀ (cfg : AdaptiveConfig) (now : Int) (lang : String)
      (hist : Option (List AttemptEntry)),
      parse_window cfg.adaptive_searching_delay = .unparsed →
      is_search_active cfg now lang hist = some true) ∧
    (∀ (cfg : AdaptiveConfig) (now : Int) (lang : String)
      (hist : Option (List AttemptEntry)) (dW : Int),
      parse_window cfg.adaptive_searching_delay = .parsed dW →
      parse_window cfg.adaptive_searching_delta = .unparsed →
      is_search_active cfg now lang hist = some true) := by
  refine ⟨?_, ?_, by decide, ?_, ?_⟩
  · intro s c cs hdata hdig hd
    unfold parse_window firstCharInt
    rw [if_pos hd, hdata]
    simp [hdig]
  · intro s c cs hdata hdig hd hw
    unfold parse_window firstCharInt
    rw [if_neg (by simp [hd]), if_pos hw, hdata]
    simp [hdig]
  · intro cfg now lang hist hu
    exact gate_fail_open_delay cfg now lang hist hu
  · intro cfg now lang hist dW hd hu
    exact gate_fail_open_delta cfg now lang hist dW hd hu

/-- Witness for C9: a two-digit day setting uses only its first digit,
and an unparsable setting string forces the gate open. -/
theorem parse_window_first_char_only_witness :
    parse_window "25d" = .parsed 172800 ∧ parse_window "12w" = .parsed 604800 ∧
    is_search_active ⟨true, "monthly", "1w"⟩ 1000000000 "en" (some [⟨"en", 100⟩]) =
      some true ∧
    is_search_active ⟨true, "1d", "biweekly"⟩ 1000000000 "en" (some [⟨"en", 100⟩]) =
      some true := by
  obtain ⟨h1, _, h3, h4, h5⟩ := parse_window_first_char_only
  exact ⟨h1 "25d" '2' ['5', 'd'] rfl (by decide) (by decide), h3,
    h4 ⟨true, "monthly", "1w"⟩ 1000000000 "en" (some [⟨"en", 100⟩]) (by decide),
    h5 ⟨true, "1d", "biweekly"⟩ 1000000000 "en" (some [⟨"en", 100⟩]) 86400
      (by decide) (by decide)⟩

/-- **C2.** On a history with at most 2 entries per distinct language,
`updateFailedAttempts` keeps the invariant: the result has at most 2
entries per language, its entries for the desired language are exactly
the earliest existing matching entry (if any) plus one new entry
timestamped now, every other language's entries are unchanged (as a
multiset), and the result is sorted by language code. -/
theorem updateFailedAttempts_retention (now : Int) (lang : String)
    (hist : Option (List AttemptEntry))
    (hbound : ∀ l : String, ((hist.getD []).countP (fun x => x.lang = l)) ≤ 2) :
    (∀ l : String, ((updateFailedAttempts now lang hist).countP (fun x => x.lang = l)) ≤ 2) ∧
    (earliestMatchingTs lang (hist.getD []) = none →
      (updateFailedAttempts now lang hist).filter (fun x => x.lang = lang) = [⟨lang, now⟩]) ∧
    (∀ t : Int, earliestMatchingTs lang (hist.getD []) = some t →
      ∃ m, m ∈ hist.getD [] ∧ m.lang = lang ∧ m.ts = t ∧
        ((updateFailedAttempts now lang hist).filter (fun x => x.lang = lang)).Perm
          [m, ⟨lang, now⟩]) ∧
    (∀ l : String, ¬ l = lang →
      ((updateFailedAttempts now lang hist).filter (fun x => x.lang = l)).Perm
        ((hist.getD []).filter (fun x => x.lang = l))) ∧
    List.Sorted langLe (updateFailedAttempts now lang hist) := by
  refine ⟨?_, ?_, ?_, fun l hne => update_filter_other_perm now lang l hist hne,
    update_sorted now lang hist⟩
  · intro l
    rw [(update_perm now lang hist).countP_eq (fun x => x.lang = l)]
    rw [List.countP_append, List.countP_append]
    by_cases hl : l = lang
    · subst hl
      have hF : ((hist.getD []).filter (fun x => ¬ x.lang = l)).countP
          (fun x => x.lang = l) = 0 := by
        rw [List.countP_eq_zero]
        intro a ha
        have := (List.mem_filter.1 ha).2
        simp only [decide_not, Bool.not_eq_true', decide_eq_false_iff_not] at this
        simp [this]
      have hT : (List.countP (fun x => decide (x.lang = l))
          ((List.insertionSort tsLe ((hist.getD []).filter
            (fun x => x.lang = l))).take 1)) ≤ 1 := by
        refine le_trans (List.countP_le_length _) ?_
        rw [List.length_take]
        exact min_le_left 1 _
      have hN : List.countP (fun x => decide (x.lang = l))
          [(⟨l, now⟩ : AttemptEntry)] = 1 := by simp
      omega
    · have hl' : ¬ lang = l := fun h => hl h.symm
      have hF : ((hist.getD []).filter (fun x => ¬ x.lang = lang)).countP
          (fun x => x.lang = l) ≤ 2 := by
        rw [List.countP_filter]
        refine le_trans (le_of_eq (List.countP_congr ?_)) (hbound l)
        intro x _
        by_cases hx : x.lang = l
        · have hxl : ¬ x.lang = lang := fun h => hl ((hx.symm.trans h))
          simp [hx, hxl, hl]
        · simp [hx]
      have hT : (List.countP (fun x => decide (x.lang = l))
          ((List.insertionSort tsLe ((hist.getD []).filter
            (fun x => x.lang = lang))).take 1)) = 0 := by
        rw [List.countP_eq_zero]
        intro a ha
        have := take1_sort_lang lang hist a ha
        simp [this, hl']
      have hN : List.countP (fun x => decide (x.lang = l))
          [(⟨lang, now⟩ : AttemptEntry)] = 0 := by
        simp [hl']
      omega
  · intro hnone
    have hperm := update_filter_lang_perm now lang hist
    have hfil : (hist.getD []).filter (fun x => x.lang = lang) = [] := by
      have := (minTsList_eq_none_iff _).1 hnone
      exact this
    rw [hfil] at hperm
    simpa using List.perm_singleton.1 hperm
  · intro t hsome
    have hperm := update_filter_lang_perm now lang hist
    cases hsort : List.insertionSort tsLe ((hist.getD []).filter
        (fun x => x.lang = lang)) with
    | nil =>
      have hpermS := List.perm_insertionSort tsLe ((hist.getD []).filter
        (fun x => x.lang = lang))
      rw [hsort] at hpermS
      have hfil := List.nil_perm.1 hpermS
      rw [earliestMatchingTs, hfil] at hsome
      exact absurd hsome (by simp [minTsList])
    | cons m ms =>
      have hmin := insertionSort_head_min hsort
      rw [earliestMatchingTs, hmin] at hsome
      have hts : m.ts = t := Option.some_injective Int hsome
      have hm2 := (List.mem_insertionSort tsLe).1 (hsort ▸ List.mem_cons_self m ms)
      have hmem := (List.mem_filter.1 hm2).1
      have hlang : m.lang = lang := of_decide_eq_true (List.mem_filter.1 hm2).2
      refine ⟨m, hmem, hlang, hts, ?_⟩
      rw [hsort] at hperm
      simpa using hperm

/-- Witness for C2 at a concrete two-language history. -/
theorem updateFailedAttempts_retention_witness :
    (∀ l : String, ((some [⟨"en", 5⟩, ⟨"fr", 7⟩] :
        Option (List AttemptEntry)).getD []).countP (fun x => x.lang = l) ≤ 2) ∧
    ((∀ l : String, ((updateFailedAttempts 100 "en"
        (some [⟨"en", 5⟩, ⟨"fr", 7⟩])).countP (fun x => x.lang = l)) ≤ 2) ∧
    (earliestMatchingTs "en" ((some [⟨"en", 5⟩, ⟨"fr", 7⟩] :
        Option (List AttemptEntry)).getD []) = none →
      (updateFailedAttempts 100 "en" (some [⟨"en", 5⟩, ⟨"fr", 7⟩])).filter
        (fun x => x.lang = "en") = [⟨"en", 100⟩]) ∧
    (∀ t : Int, earliestMatchingTs "en" ((some [⟨"en", 5⟩, ⟨"fr", 7⟩] :
        Option (List AttemptEntry)).getD []) = some t →
      ∃ m, m ∈ (some [⟨"en", 5⟩, ⟨"fr", 7⟩] :
          Option (List AttemptEntry)).getD [] ∧ m.lang = "en" ∧ m.ts = t ∧
        ((updateFailedAttempts 100 "en" (some [⟨"en", 5⟩, ⟨"fr", 7⟩])).filter
          (fun x => x.lang = "en")).Perm [m, ⟨"en", 100⟩]) ∧
    (∀ l : String, ¬ l = "en" →
      ((updateFailedAttempts 100 "en" (some [⟨"en", 5⟩, ⟨"fr", 7⟩])).filter
        (fun x => x.lang = l)).Perm
        (((some [⟨"en", 5⟩, ⟨"fr", 7⟩] :
          Option (List AttemptEntry)).getD []).filter (fun x => x.lang = l))) ∧
    List.Sorted langLe (updateFailedAttempts 100 "en" (some [⟨"en", 5⟩, ⟨"fr", 7⟩]))) :=
  ⟨fun l => le_trans (List.countP_le_length _) (by decide),
    updateFailedAttempts_retention 100 "en" (some [⟨"en", 5⟩, ⟨"fr", 7⟩])
      (fun l => le_trans (List.countP_le_length _) (by decide))⟩

/-- **C5, counterexample.** With adaptive gating enabled (delay "3w",
delta "1w"), recording a first attempt for "en" at instant 1000000000 and
querying the gate at that same instant yields `True`, not `False`: the
item is still inside the frequent phase, where the gate is always due.
This refutes the claim that `is_due` is `False` immediately after
`record_attempt` whenever gating is enabled. -/
theorem record_attempt_then_due_counterexample :
    (⟨true, "3w", "1w"⟩ : AdaptiveConfig).adaptive_searching = true ∧
    is_search_active ⟨true, "3w", "1w"⟩ 1000000000 "en"
      (some (updateFailedAttempts 1000000000 "en" (some []))) = some true :=
  ⟨rfl, by decide⟩

/-- **C5, amended.** Immediately after `updateFailedAttempts` records an
attempt for a language, `is_search_active` at that same instant returns
`False`, provided adaptive gating is enabled, both window settings parse,
the delta window is positive, the instant and all history timestamps are
parseable, the history's timestamps are not in the future, and the item
is in the sparse phase (the earliest matching timestamp — `now` when
there is none — plus the delay window is at or before `now`); in the
frequent phase the gate stays due instead. -/
theorem record_attempt_not_due_sparse (cfg : AdaptiveConfig) (now : Int) (lang : String)
    (hist : Option (List AttemptEntry)) (dW dT : Int)
    (hen : cfg.adaptive_searching = true)
    (hd : parse_window cfg.adaptive_searching_delay = .parsed dW)
    (ht : parse_window cfg.adaptive_searching_delta = .parsed dT)
    (hdT : 0 < dT)
    (hnow : tsParseable now = true)
    (hpast : ∀ x ∈ hist.getD [], x.ts ≤ now ∧ tsParseable x.ts = true)
    (hsparse : ((earliestMatchingTs lang (hist.getD [])).getD now) + dW ≤ now) :
    is_search_active cfg now lang (some (updateFailedAttempts now lang hist)) =
      some false := by
  rw [is_search_active_eq_due cfg now lang _ dW dT hd ht, hen]
  have hperm := update_filter_lang_perm now lang hist
  have hmin := minTsList_perm hperm
  have hmax := maxTsList_perm hperm
  unfold is_due_spec
  simp only [not_true_eq_false, if_false]
  rw [earliestMatchingTs, latestMatchingTs, hmin, hmax]
  cases hsort : List.insertionSort tsLe ((hist.getD []).filter
      (fun x => x.lang = lang)) with
  | nil =>
    have hpermS := List.perm_insertionSort tsLe ((hist.getD []).filter
      (fun x => x.lang = lang))
    rw [hsort] at hpermS
    have hfil := List.nil_perm.1 hpermS
    rw [earliestMatchingTs, hfil] at hsparse
    have hsparse' : now + dW ≤ now := hsparse
    simp only [List.take_nil, List.nil_append]
    have hminv : minTsList [(⟨lang, now⟩ : AttemptEntry)] = some now := by
      simp [minTsList]
    have hmaxv : maxTsList [(⟨lang, now⟩ : AttemptEntry)] = some now := by
      simp [maxTsList]
    rw [hminv, hmaxv]
    show some (if ¬ (tsParseable now && tsParseable now) = true then true
      else if now < now + dW then true else decide (now + dT ≤ now)) = some false
    rw [if_neg (by simp [hnow]), if_neg (by omega), decide_eq_false (by omega)]
  | cons m ms =>
    have hmin0 := insertionSort_head_min hsort
    rw [earliestMatchingTs, hmin0] at hsparse
    have hm2 := (List.mem_insertionSort tsLe).1 (hsort ▸ List.mem_cons_self m ms)
    have hmem := (List.mem_filter.1 hm2).1
    obtain ⟨hmts, hmp⟩ := hpast m hmem
    have hsparse' : m.ts + dW ≤ now := hsparse
    simp only [List.take_succ_cons, List.take_zero, List.cons_append, List.nil_append]
    have hminv : minTsList [m, (⟨lang, now⟩ : AttemptEntry)] = some m.ts := by
      simp [minTsList, min_eq_left hmts]
    have hmaxv : maxTsList [m, (⟨lang, now⟩ : AttemptEntry)] = some now := by
      simp [maxTsList, max_eq_right hmts]
    rw [hminv, hmaxv]
    show some (if ¬ (tsParseable m.ts && tsParseable now) = true then true
      else if now < m.ts + dW then true else decide (now + dT ≤ now)) = some false
    rw [if_neg (by simp [hnow, hmp]), if_neg (by omega), decide_eq_false (by omega)]

/-- Witness for the amended C5 in the sparse phase: an attempt recorded
35 days after the initial one is immediately not due again. -/
theorem record_attempt_not_due_sparse_witness :
    (0 : Int) < 604800 ∧
    is_search_active ⟨true, "3w", "1w"⟩ 1003000000 "en"
      (some (updateFailedAttempts 1003000000 "en" (some [⟨"en", 1000000000⟩]))) =
      some false :=
  ⟨by decide,
    record_attempt_not_due_sparse ⟨true, "3w", "1w"⟩ 1003000000 "en"
      (some [⟨"en", 1000000000⟩]) 1814400 604800 rfl (by decide) (by decide)
      (by decide) (by decide) (by decide) (by decide)⟩

/-- **C3, counterexample.** A candidate that cannot be hash-verified
(`hash_verifiable = false`) while declaring a `hash` match, and whose
matches do not cover series/season/episode, is NOT skipped by the code
(it proceeds to scoring), although the claim says it is discarded; the
claim's characterisation of the skip rule is therefore false. -/
theorem series_skip_claim_counterexample :
    series_skip false {"hash"} = false ∧ series_skip_claim false {"hash"} = true := by
  decide

/-- **C3, amended.** In manual search for series, a candidate is
discarded before scoring iff it does NOT declare an unverifiable hash
match (i.e. it is hash-verifiable, or `hash` is not among its matches)
AND its declared matches do not cover {series, season, episode}; every
other candidate — in particular one claiming a hash match from a
non-hash-verifiable provider — proceeds to scoring. -/
theorem series_skip_amended (hv : Bool) (ms : Finset String) :
    series_skip hv ms = true ↔
      ((hv = true ∨ "hash" ∉ ms) ∧
        ¬ (({"series", "season", "episode"} : Finset String) ⊆ ms)) := by
  unfold series_skip can_verify_series
  cases hv <;> by_cases hm : "hash" ∈ ms <;>
    by_cases hs : ({"series", "season", "episode"} : Finset String) ⊆ ms <;>
    simp [hm, hs]

/-- **C4.** In the upgrade flow, a previous score passed as
`forced_minimum_score` yields `min_score = previous + 1`; a candidate
scoring exactly the previous score fails the floor while any strictly
higher score meets it, and the successful upgrade is logged to history
with action code 3. -/
theorem upgrade_min_score_strict (prev base : Int) (hprev : 0 < prev) :
    effective_min_score base (some prev) = prev + 1 ∧
    meets_min_score prev (prev + 1) = false ∧
    (∀ s : Int, prev < s → meets_min_score s (prev + 1) = true) ∧
    upgrade_history_action = 3 := by
  refine ⟨?_, ?_, ?_, rfl⟩
  · show (if prev = 0 then base else prev + 1) = prev + 1
    rw [if_neg (by omega)]
  · unfold meets_min_score
    simp only [decide_eq_false_iff_not]
    omega
  · intro s hs
    unfold meets_min_score
    simp only [decide_eq_true_eq]
    omega

/-- Witness for C4: the spec's scenario with prior score 350 — candidate
scoring 350 rejected, 355 accepted. -/
theorem upgrade_min_score_strict_witness :
    (0 : Int) < 350 ∧
    (effective_min_score 237 (some 350) = 351 ∧
     meets_min_score 350 351 = false ∧
     (∀ s : Int, 350 < s → meets_min_score s 351 = true) ∧
     upgrade_history_action = 3) :=
  ⟨by decide, upgrade_min_score_strict 350 237 (by decide)⟩

/-- Accumulating `set.add` over the language tuples is the finite set of
the per-tuple variants. -/
theorem foldl_insert_variants (toAlpha3 : String → String) :
    ∀ (languages : List (String × String × String)) (s : Finset LangTag),
      languages.foldl (fun s t => insert (gen_variant toAlpha3 t) s) s =
        s ∪ (languages.map (gen_variant toAlpha3)).toFinset
  | [], s => by simp
  | t :: ts, s => by
    rw [List.foldl_cons, foldl_insert_variants toAlpha3 ts (insert (gen_variant toAlpha3 t) s)]
    ext x
    simp only [Finset.mem_union, Finset.mem_insert, List.map_cons, List.mem_toFinset,
      List.mem_cons]
    tauto

/-- **C6.** `generate_subtitles` adds exactly one variant per requested
language tuple — the declared forced/hi variant — and nothing else (so
no hearing-impaired counterpart is ever added); a missing-subtitles token
`"en:forced"` passed through `_wanted_movie` yields exactly the singleton
variant with base `en`, forced, non-hi. -/
theorem generate_language_set_exact (toAlpha3 : String → String)
    (languages : List (String × String × String)) :
    generate_language_set toAlpha3 languages =
      (languages.map (gen_variant toAlpha3)).toFinset ∧
    (∀ v ∈ generate_language_set toAlpha3 languages,
      ∃ t ∈ languages, v = gen_variant toAlpha3 t) ∧
    wanted_movie_tuple "en:forced" = ("en", "False", "True") ∧
    generate_language_set toAlpha3 [wanted_movie_tuple "en:forced"] =
      {⟨toAlpha3 "en", true, false⟩} := by
  have hset : generate_language_set toAlpha3 languages =
      (languages.map (gen_variant toAlpha3)).toFinset := by
    rw [generate_language_set, foldl_insert_variants toAlpha3 languages ∅,
      Finset.empty_union]
  refine ⟨hset, ?_, by decide, ?_⟩
  · intro v hv
    rw [hset, List.mem_toFinset, List.mem_map] at hv
    rcases hv with ⟨t, ht, rfl⟩
    exact ⟨t, ht, rfl⟩
  · have htuple : wanted_movie_tuple "en:forced" = ("en", "False", "True") := by decide
    have hvar : gen_variant toAlpha3 ("en", "False", "True") =
        ⟨toAlpha3 "en", true, false⟩ := by
      simp [gen_variant]
    rw [htuple, generate_language_set, List.foldl_cons, List.foldl_nil, hvar]
    rfl

/-- Witness for C6 at a concrete conversion function and token. -/
theorem generate_language_set_exact_witness :
    generate_language_set id [("en", "False", "True")] =
      ([("en", "False", "True")].map (gen_variant id)).toFinset ∧
    (∃ t ∈ [("en", "False", "True")], (⟨"en", true, false⟩ : LangTag) = gen_variant id t) ∧
    generate_language_set id [wanted_movie_tuple "en:forced"] =
      {⟨"en", true, false⟩} :=
  ⟨(generate_language_set_exact id [("en", "False", "True")]).1,
   (generate_language_set_exact id [("en", "False", "True")]).2.1
     ⟨"en", true, false⟩ (by decide),
   (generate_language_set_exact id [("en", "False", "True")]).2.2.2⟩

/-- **C7.** In manual search, every variant of the profile-derived
initial set is queried, every non-forced variant is additionally queried
with its HI-toggled counterpart, nothing else enters the queried set (so
forced variants are not HI-expanded), and a plain `fr` request expands to
`{fr, fr+hi}`. -/
theorem manual_search_hi_expansion (initial : Finset LangTag) :
    (∀ v ∈ initial, v ∈ manual_language_set initial) ∧
    (∀ v ∈ initial, v.forced = false → toggleHi v ∈ manual_language_set initial) ∧
    (∀ w ∈ manual_language_set initial, w ∈ initial ∨
      ∃ v ∈ initial, v.forced = false ∧ w = toggleHi v) ∧
    manual_language_set {⟨"fra", false, false⟩} =
      {⟨"fra", false, false⟩, ⟨"fra", false, true⟩} := by
  refine ⟨?_, ?_, ?_, by decide⟩
  · intro v hv
    exact Finset.mem_union_left _ hv
  · intro v hv hf
    exact Finset.mem_union_right _
      (Finset.mem_image.2 ⟨v, Finset.mem_filter.2 ⟨hv, hf⟩, rfl⟩)
  · intro w hw
    rcases Finset.mem_union.1 hw with h | h
    · exact .inl h
    · rcases Finset.mem_image.1 h with ⟨v, hv, rfl⟩
      have hv2 := Finset.mem_filter.1 hv
      exact .inr ⟨v, hv2.1, hv2.2, rfl⟩

/-- Witness for C7 at the `fr` scenario. -/
theorem manual_search_hi_expansion_witness :
    (⟨"fra", false, false⟩ : LangTag) ∈ manual_language_set {⟨"fra", false, false⟩} ∧
    toggleHi ⟨"fra", false, false⟩ ∈ manual_language_set {⟨"fra", false, false⟩} ∧
    manual_language_set {⟨"fra", false, false⟩} =
      {⟨"fra", false, false⟩, ⟨"fra", false, true⟩} :=
  ⟨(manual_search_hi_expansion {⟨"fra", false, false⟩}).1 _ (by decide),
   (manual_search_hi_expansion {⟨"fra", false, false⟩}).2.1 _ (by decide) rfl,
   (manual_search_hi_expansion {⟨"fra", false, false⟩}).2.2.2⟩

/-- **C8.** With an empty (fully throttled) provider list, both
`generate_subtitles` (for a non-empty language request whose video
resolves) and `manual_search` return `None`, log the "no providers
available" outcome, and never perform a provider query. -/
theorem throttle_short_circuit (languages : List (String × String × String))
    (video_ok saved_any : Bool)
    (hlang : languages.isEmpty = false) (hvid : video_ok = true) :
    generate_subtitles_outcome languages [] video_ok saved_any =
      ⟨true, false, true⟩ ∧
    manual_search_outcome [] video_ok = ⟨true, false, true⟩ :=
  ⟨by simp [generate_subtitles_outcome, hlang, hvid], rfl⟩

/-- Witness for C8 at a concrete one-language request. -/
theorem throttle_short_circuit_witness :
    ([("en", "False", "False")].isEmpty = false) ∧
    (generate_subtitles_outcome [("en", "False", "False")] [] true false =
      ⟨true, false, true⟩ ∧
     manual_search_outcome [] true = ⟨true, false, true⟩) :=
  ⟨by decide, throttle_short_circuit [("en", "False", "False")] true false rfl rfl⟩

/-- **C10.** A `forced_minimum_score` of 0 is falsy in the
`if forced_minimum_score:` test, so it does not override the minimum
score to 1: the `_get_scores` default floor applies (60 for a movie with
unset settings), not `previous_score + 1`. -/
theorem zero_forced_minimum_score_ignored :
    (∀ base : Int, effective_min_score base (some 0) = base) ∧
    effective_min_score ((get_scores_min "movie" none none : Nat) : Int) (some 0) = 60 ∧
    ¬ effective_min_score ((get_scores_min "movie" none none : Nat) : Int) (some 0) = 1 :=
  ⟨fun base => by simp [effective_min_score], by decide, by decide⟩

end Bazarr
